import Mathlib

/-!
Verification of the lazy Laurent series engine
(file src/sage/rings/lazy_laurent_series.py).

The development shallowly embeds the series-node data model of the Python
source: Laurent polynomials become an offset plus a coefficient list, the
tagged hierarchy of auxiliary classes (LazyLaurentSeries_zero,
LazyLaurentSeries_eventually_geometric, LazyLaurentSeries_coefficient_function
and the operator classes LLS_add, LLS_sub, LLS_mul, LLS_neg, LLS_scalar,
LLS_apply_coeff, LLS_inv) becomes an inductive type, and the demand-driven
coefficient evaluation of LazyLaurentSeries_inexact.__getitem__ together with
each get_coefficient method becomes a recursive coefficient function.
Caching only memoizes values, so the pure coefficient function is the
denotation of the memoized evaluator; mutable state that matters to the
claims (the sparse cache inspected by __bool__, the approximate-valuation
promotion performed by __call__, the one-time binding done by define) is
modeled by explicit state passing.
-/

namespace LazySeries

/-- Errors raised by the Python source: ZeroDivisionError from division or
inversion of zero and from composing a series of negative valuation with the
zero series, ValueError for composing with a series of non-positive
valuation, for an undecidable comparison or truthiness test, and for a second
call to define; unboundLocal models the UnboundLocalError raised when a local
variable is read before assignment; outOfFuel models non-termination of the
unbounded valuation scan of LazyLaurentSeries_inexact.valuation. -/
inductive Err where
  | divisionByZero
  | valuationNonnegative
  | positiveValuation
  | undecidable
  | alreadyDefined
  | unboundLocal
  | outOfFuel
deriving DecidableEq, Repr

/-- A Laurent polynomial, embedded as the list of coefficients cs for the
exponents ofs, ofs + 1, ...; exponents outside that window have coefficient
zero. This models the sage Laurent polynomial objects stored inside
LazyLaurentSeries_eventually_geometric. -/
structure LPoly (R : Type) where
  ofs : ℤ
  cs : List R
deriving DecidableEq

variable {R : Type}

/-- Coefficient of the term with exponent k of a Laurent polynomial. -/
def LPoly.coeff [Zero R] (p : LPoly R) (k : ℤ) : R :=
  if k < p.ofs then 0 else p.cs.getD (k - p.ofs).toNat 0

/-- Truthiness of a sage Laurent polynomial: zero iff all stored coefficients
are zero. -/
def LPoly.isZero [Zero R] [DecidableEq R] (p : LPoly R) : Bool :=
  p.cs.all (fun c => c = 0)

/-- The valuation method of a sage Laurent polynomial: least exponent with a
nonzero coefficient. Meaningful only for nonzero polynomials; the source
always guards the zero polynomial before asking for its valuation. -/
def LPoly.valuation [Zero R] [DecidableEq R] (p : LPoly R) : ℤ :=
  p.ofs + p.cs.findIdx (fun c => c ≠ 0)

/-- The degree method of a sage Laurent polynomial: greatest exponent with a
nonzero coefficient. Meaningful only for nonzero polynomials, except that the
source relies on degree () = -1 for the zero polynomial with ofs 0 when
inverting the generator. -/
def LPoly.degree [Zero R] [DecidableEq R] (p : LPoly R) : ℤ :=
  p.ofs + (p.cs.length : ℤ) - 1 - (p.cs.reverse.findIdx (fun c => c ≠ 0) : ℤ)

/-- Mathematical equality of two sage Laurent polynomials, which compare by
their coefficient functions independently of list padding. -/
def LPoly.beq [Zero R] [DecidableEq R] (p q : LPoly R) : Bool :=
  decide (∀ k ∈ Finset.Icc (min p.ofs q.ofs)
      (max (p.ofs + (p.cs.length : ℤ)) (q.ofs + (q.cs.length : ℤ))),
    p.coeff k = q.coeff k)

/-- The series-node variant. Each constructor is one auxiliary class of the
source, carrying exactly the attributes its __init__ stores:

* zero is LazyLaurentSeries_zero;
* evgeo p d c is LazyLaurentSeries_eventually_geometric with
  _laurent_polynomial p, _degree d and _constant c;
* coefFn f a tag is LazyLaurentSeries_coefficient_function with coefficient
  function f and approximate valuation a; tag models Python object identity
  (two distinct objects carry distinct tags), which is what the default ==
  compares for this class;
* add, sub, mul are LLS_add, LLS_sub, LLS_mul on their operand nodes;
* neg, scalar, applyCoeff are LLS_neg, LLS_scalar and LLS_apply_coeff;
* inv s v a is LLS_inv where v is the valuation of s found by the
  constructor (so the stored approximate valuation is -v) and a is the
  stored inverse _ainv of the coefficient of s at v.

LLS_composition appears in the claims only through the dispatch of __call__,
which is modeled separately, so its power towers are not embedded here.
Uninitialized nodes form cycles and are treated by the fixpoint development
of the Catalan claim and by the define model. -/
inductive Node (R : Type) where
  | zero
  | evgeo (p : LPoly R) (degree : ℤ) (constant : R)
  | coefFn (f : ℤ → R) (av : ℤ) (tag : ℕ)
  | add (l r : Node R)
  | sub (l r : Node R)
  | mul (l r : Node R)
  | neg (s : Node R)
  | scalar (s : Node R) (c : R)
  | applyCoeff (s : Node R) (f : R → R)
  | inv (s : Node R) (v : ℤ) (a : R)

/-- The _approximate_valuation attribute as set by each __init__:
zero stores 0; eventually-geometric nodes store the polynomial valuation, or
the degree when the polynomial is zero; coefficient functions store the
user-supplied bound; add and sub store the minimum, mul the sum, of the
operand bounds; the unary operators copy the operand bound; inv stores the
negated valuation of its operand. -/
def Node.av [Zero R] [DecidableEq R] : Node R → ℤ
  | .zero => 0
  | .evgeo p d _ => if p.isZero then d else p.valuation
  | .coefFn _ a _ => a
  | .add l r => min l.av r.av
  | .sub l r => min l.av r.av
  | .mul l r => l.av + r.av
  | .neg s => s.av
  | .scalar s _ => s.av
  | .applyCoeff s _ => s.av
  | .inv _ v _ => -v

variable [CommRing R] [DecidableEq R]

/-- Coefficient n of an LLS_inv node, from LLS_inv.get_coefficient guarded by
LazyLaurentSeries_inexact.__getitem__: below the stored approximate valuation
-v the getter returns zero without consulting the formula; at -v the stored
inverse a is returned; above it the recurrence sums the already produced
coefficients of the inverse against the operand coefficients cs and rescales
by a. The recursion on the same node is at strictly smaller indices. -/
def invCoeff (cs : ℤ → R) (v : ℤ) (a : R) (n : ℤ) : R :=
  if n < -v then 0
  else if n = -v then a
  else (-(∑ k in (Finset.Icc (-v) (n - 1)).attach,
      invCoeff cs v a k.1 * cs (n - (-v) - k.1))) * a
termination_by (n + v).toNat
decreasing_by
  have hmem := Finset.mem_Icc.mp k.2
  omega

/-- The demand-driven coefficient evaluator: LazyLaurentSeries_zero and
LazyLaurentSeries_eventually_geometric implement __getitem__ directly, every
other node goes through LazyLaurentSeries_inexact.__getitem__, which returns
zero below the approximate valuation and otherwise computes via the node
formula (get_coefficient; the dense iterate_coefficients produces the same
values in order). The multiplication formula skips the products whose left
factor is zero, exactly as the source loop does. -/
def Node.coeff : Node R → ℤ → R
  | .zero, _ => 0
  | .evgeo p d c, n => if d ≤ n then c else p.coeff n
  | .coefFn f a _, n => if n < a then 0 else f n
  | .add l r, n => if n < min l.av r.av then 0 else l.coeff n + r.coeff n
  | .sub l r, n => if n < min l.av r.av then 0 else l.coeff n - r.coeff n
  | .mul l r, n =>
      if n < l.av + r.av then 0
      else ∑ k in Finset.Icc l.av (n - r.av),
        (if l.coeff k = 0 then 0 else l.coeff k * r.coeff (n - k))
  | .neg s, n => if n < s.av then 0 else -(s.coeff n)
  | .scalar s c, n => if n < s.av then 0 else s.coeff n * c
  | .applyCoeff s f, n => if n < s.av then 0 else f (s.coeff n)
  | .inv s v a, n => invCoeff (fun m => s.coeff m) v a n

/-- Test for the LazyLaurentSeries_zero class, as done by the isinstance
checks of the source. -/
def Node.isZeroNode : Node R → Bool
  | .zero => true
  | _ => false

/-- Test for the LazyLaurentSeries_eventually_geometric class. -/
def Node.isEvgeo : Node R → Bool
  | .evgeo _ _ _ => true
  | _ => false

/-- The attributes of an eventually-geometric node, when the node is one. -/
def Node.evgeoParts : Node R → Option (LPoly R × ℤ × R)
  | .evgeo p d c => some (p, d, c)
  | _ => none

/-- Python == on auxiliary nodes. The eventually-geometric class compares
_degree, _laurent_polynomial and _constant; the unary base class compares the
type and the operand only, so LLS_scalar ignores its scalar, LLS_apply_coeff
its function and LLS_inv its stored valuation data; the binary base class
compares the type and both operands in order; zero and coefficient-function
nodes fall back to object identity, modeled through the identity tag for
coefficient functions and as a shared singleton for the cached parent zero. -/
def nodeEq : Node R → Node R → Bool
  | .zero, .zero => true
  | .evgeo p d c, .evgeo q e k => decide (d = e) && p.beq q && decide (c = k)
  | .coefFn _ _ t, .coefFn _ _ u => decide (t = u)
  | .add a b, .add c d => nodeEq a c && nodeEq b d
  | .sub a b, .sub c d => nodeEq a c && nodeEq b d
  | .mul a b, .mul c d => nodeEq a c && nodeEq b d
  | .neg s, .neg t => nodeEq s t
  | .scalar s _, .scalar t _ => nodeEq s t
  | .applyCoeff s _, .applyCoeff t _ => nodeEq s t
  | .inv s _ _, .inv t _ _ => nodeEq s t
  | _, _ => false

/-- LazyLaurentSeries._richcmp_ restricted to the equality operator: zero
nodes compare trivially; if at least one side is not eventually geometric,
the coefficients are compared on the indices from the smaller approximate
valuation up to (excluding) the larger one, a difference returning an unequal
verdict, after which structural node equality either certifies equality or
the comparison raises the undecidable ValueError; two eventually-geometric
nodes compare by their full structural equality. -/
def richcmpEq (x y : Node R) : Except Err Bool :=
  if x.isZeroNode then .ok y.isZeroNode
  else if y.isZeroNode then .ok false
  else if !(x.isEvgeo && y.isEvgeo) then
    if decide (∃ i ∈ Finset.Ico (min x.av y.av) (max x.av y.av),
        x.coeff i ≠ y.coeff i) then .ok false
    else if nodeEq x y then .ok true
    else .error .undecidable
  else .ok (nodeEq x y)

/-- LazyLaurentSeries.__bool__ for a series in the sparse implementation,
where the node cache is a dict from index to coefficient, given here as the
association list of its entries in insertion order. The source iterates
directly over the dict, so the truthiness of each KEY is tested. The final
fallback queries the coefficient at the approximate valuation and otherwise
raises the undecidable ValueError. In the dense implementation the cache is
a list of values and the same loop iterates over the values. -/
def llsBoolSparse (node : Node R) (cache : List (ℤ × R)) : Except Err Bool :=
  if node.isZeroNode then .ok false
  else match node.evgeoParts with
    | some (p, _, c) => .ok (!p.isZero || decide (c ≠ 0))
    | none =>
      if cache.any (fun kv => decide (kv.1 ≠ 0)) then .ok true
      else if node.coeff node.av ≠ 0 then .ok true
      else .error .undecidable

/-- The state of a public series for the purpose of define: either it wraps
an ordinary node, or it is a LazyLaurentSeries_uninitialized placeholder with
its declared approximate valuation and optional bound target. -/
inductive SeriesRep (R : Type) where
  | wrapped (node : Node R)
  | uninitialized (av : ℤ) (target : Option (Node R))

/-- Whether the series is an unbound placeholder, the only state accepted by
define. -/
def SeriesRep.isUnbound : SeriesRep R → Bool
  | .uninitialized _ none => true
  | _ => false

/-- LazyLaurentSeries.define: raise the already-defined ValueError unless the
receiver is an unbound placeholder, in which case bind its target. The check
precedes the assignment, so on failure the state is returned unchanged. -/
def defineOp (s : SeriesRep R) (expr : Node R) : Except Err Unit × SeriesRep R :=
  match s with
  | .uninitialized a none => (.ok (), .uninitialized a (some expr))
  | other => (.error .alreadyDefined, other)

/-- LazyLaurentSeries.map_coefficients: on an eventually-geometric node the
source body reads the local variables p, c and d before ever assigning them
(p = p.map_coefficients(func) and so on), so Python raises
UnboundLocalError; every other node is wrapped in LLS_apply_coeff. -/
def mapCoefficients (node : Node R) (func : R → R) : Except Err (Node R) :=
  match node with
  | .evgeo _ _ _ => .error .unboundLocal
  | n => .ok (.applyCoeff n func)

/-- Outcome of LazyLaurentSeries.__call__ when it does not raise. The
polySubstitution outcome stands for the direct polynomial-substitution
branch taken when the called series is a finite polynomial; its value is
outside the scope of the claims. The composed outcome records that an
LLS_composition node over the two operands was constructed together with the
(possibly promoted) approximate valuation of the inner series; fromZeroG
likewise records the (possibly promoted) approximate valuation of the called
series. -/
inductive CallResult (R : Type) where
  | fromZeroG (value : R) (fAvNew : ℤ)
  | selfZero
  | polySubstitution
  | composed (gAvNew : ℤ)
deriving DecidableEq, Repr

/-- LazyLaurentSeries.__call__ with a lazy-series argument. When g is the
zero node, the value at 0 is returned, after a scan of the coefficients of f
on the indices from the approximate valuation of f up to 0 when that bound
is negative, which either raises the nonnegative-valuation ZeroDivisionError
or promotes the bound of f to 0. When f is zero, f itself is returned; when
f is a finite polynomial, direct substitution happens. Otherwise, when the
approximate valuation of g is not yet positive, the source scans the
coefficients g[i] for i in range(self._aux._approximate_valuation), the
bound of f, raising the positive-valuation ValueError on a nonzero value and
otherwise promoting the bound of g to 1; then LLS_composition is built. -/
def llsCall (f g : Node R) : Except Err (CallResult R) :=
  if g.isZeroNode then
    if 0 ≤ f.av then .ok (.fromZeroG (f.coeff 0) f.av)
    else if decide (∃ i ∈ Finset.Ico f.av 0, f.coeff i ≠ 0) then
      .error .valuationNonnegative
    else .ok (.fromZeroG (f.coeff 0) 0)
  else if f.isZeroNode then .ok .selfZero
  else if (match f.evgeoParts with
           | some (_, _, c) => decide (c = 0)
           | none => false) then .ok .polySubstitution
  else if g.av ≤ 0 then
    if decide (∃ i ∈ Finset.Ico (0 : ℤ) f.av, g.coeff i ≠ 0) then
      .error .positiveValuation
    else .ok (.composed 1)
  else .ok (.composed g.av)

/-- Result of the valuation method: infinity for the zero node, a finite
value otherwise; timeout models the scan of
LazyLaurentSeries_inexact.valuation running beyond the given fuel, which in
the source is an infinite loop. -/
inductive ValRes where
  | inf
  | fin (v : ℤ)
  | timeout
deriving DecidableEq, Repr

/-- The upward scan of LazyLaurentSeries_inexact.valuation: starting at the
approximate valuation, return the first index with a nonzero coefficient. -/
def scanFrom (node : Node R) (n : ℤ) : ℕ → ValRes
  | 0 => .timeout
  | fuel + 1 => if node.coeff n ≠ 0 then .fin n else scanFrom node (n + 1) fuel

/-- The valuation method: LazyLaurentSeries_zero returns infinity,
LazyLaurentSeries_eventually_geometric returns its stored approximate
valuation, and every inexact node scans upward for a nonzero coefficient. -/
def nodeValuation (node : Node R) (fuel : ℕ) : ValRes :=
  match node with
  | .zero => .inf
  | .evgeo p d c => .fin (Node.av (.evgeo p d c))
  | n => scanFrom n n.av fuel

/-- Leading zeros of a coefficient list: how many and what remains. -/
def stripLow : List R → ℕ × List R
  | [] => (0, [])
  | c :: t => if c = 0 then ((stripLow t).1 + 1, (stripLow t).2) else (0, c :: t)

/-- Drop the trailing zeros of a coefficient list. -/
def stripHigh (l : List R) : List R :=
  ((stripLow l.reverse).2).reverse

variable {F : Type} [Field F] [DecidableEq F]

/-- One pass of polynomial long division on descending coefficient lists:
repeatedly cancel the top coefficient against the top of the divisor,
collecting the quotient coefficients (which come out in ascending order). -/
def divLoop (dRev : List F) : ℕ → List F → List F → List F × List F
  | 0, pRev, qAcc => (qAcc, pRev)
  | steps + 1, pRev, qAcc =>
      let c := pRev.headD 0 / dRev.headD 0
      let r := (List.zipWith (fun a b => a - c * b) pRev
        (dRev ++ List.replicate (pRev.length - dRev.length) 0)).tail
      divLoop dRev steps r (c :: qAcc)

/-- The quotient of two sage Laurent polynomials when it is again a Laurent
polynomial, else none. The source computes the quotient in the fraction
field and attempts to coerce it back; the quotient exists exactly when the
unit-normalized dividend is divisible by the unit-normalized divisor, which
long division over the field decides. A zero quotient is reported as none
because the eventually-geometric constructor then raises the caught
ValueError for a zero polynomial without a degree. -/
def polyDivExact (p d : LPoly F) : Option (LPoly F) :=
  let pn := stripHigh (stripLow p.cs).2
  let dn := stripHigh (stripLow d.cs).2
  if pn.isEmpty then none
  else if dn.isEmpty then none
  else if pn.length < dn.length then none
  else
    let steps := pn.length - dn.length + 1
    let qr := divLoop dn.reverse steps pn.reverse []
    if qr.2.all (fun c => c = 0) then
      some ⟨(p.ofs + (stripLow p.cs).1) - (d.ofs + (stripLow d.cs).1), qr.1⟩
    else none

/-- LLS_inv.__init__: the valuation v of the operand is computed, the node
stores approximate valuation -v and the inverse _ainv of the coefficient at
v. For the zero node the valuation is infinity and the coefficient there is
zero, and inverting the zero coefficient raises ZeroDivisionError; over a
field the same error occurs exactly when the coefficient at v is zero. -/
def llsInvInitRaw (node : Node F) (fuel : ℕ) : Except Err (Node F) :=
  match nodeValuation node fuel with
  | .inf => .error .divisionByZero
  | .timeout => .error .outOfFuel
  | .fin v =>
      if node.coeff v = 0 then .error .divisionByZero
      else .ok (.inv node v (node.coeff v)⁻¹)

/-- LazyLaurentSeries.__invert__: an eventually-geometric node whose
polynomial is exactly the generator z is inverted in closed form, keeping
its constant, with degree computed as the degree of the inverse plus one;
inverting an LLS_inv node unwraps the operand; every other node goes through
the LLS_inv constructor. -/
def llsInvert (node : Node F) (fuel : ℕ) : Except Err (Node F) :=
  match node with
  | .evgeo p d c =>
      if p.beq ⟨1, [1]⟩ then .ok (.evgeo ⟨-1, [1]⟩ 0 c)
      else llsInvInitRaw (.evgeo p d c) fuel
  | .inv s _ _ => .ok s
  | n => llsInvInitRaw n fuel

/-- LazyLaurentSeries._div_ after the ZeroDivisionError check and the
closed-form fast path fail to apply: build LLS_mul of the left operand with
a fresh LLS_inv of the right operand. -/
def llsDivGeneric (l r : Node F) (fuel : ℕ) : Except Err (Node F) :=
  match llsInvInitRaw r fuel with
  | .ok i => .ok (.mul l i)
  | .error e => .error e

/-- LazyLaurentSeries._div_: division by the zero node raises
ZeroDivisionError at once; a zero numerator returns the zero series; two
eventually-geometric operands without constant tails attempt exact division
of their polynomials (where a zero divisor polynomial again raises
ZeroDivisionError from the fraction field, and an inexact or zero quotient
falls through); otherwise the generic multiply-by-inverse node is built. -/
def llsDiv (l r : Node F) (fuel : ℕ) : Except Err (Node F) :=
  if r.isZeroNode then .error .divisionByZero
  else if l.isZeroNode then .ok .zero
  else match l.evgeoParts, r.evgeoParts with
    | some (pl, _, cl), some (pr, _, cr) =>
        if cl = 0 ∧ cr = 0 then
          if pr.isZero then .error .divisionByZero
          else match polyDivExact pl pr with
            | some q => .ok (.evgeo q (q.degree + 1) cl)
            | none => llsDivGeneric l r fuel
        else llsDivGeneric l r fuel
    | _, _ => llsDivGeneric l r fuel

/-- LLS_div.get_coefficient guarded by the inexact __getitem__: the node
stores the operand valuations lv and rv found at construction and the
inverse a of the right coefficient at rv; its approximate valuation is
lv - rv, below which the getter returns zero; at the base index the quotient
of the boundary coefficients is returned, and above it the recurrence
subtracts the convolution of the earlier quotient coefficients with the
right operand before rescaling by a. -/
def divCoeff (lc rc : ℤ → F) (lv rv : ℤ) (a : F) (n : ℤ) : F :=
  if n < lv - rv then 0
  else if n = lv - rv then lc lv / rc rv
  else (lc (n + rv) - ∑ k in (Finset.Icc (lv - rv) (n - 1)).attach,
      divCoeff lc rc lv rv a k.1 * rc (n + rv - k.1)) * a
termination_by (n - (lv - rv)).toNat
decreasing_by
  have hmem := Finset.mem_Icc.mp k.2
  omega

/-- The polynomial 1 of the Laurent polynomial ring, as stored inside the
series one of the ring: coefficient 1 at exponent 0. The node for the series
one has degree 1 and constant tail 0. -/
def oneNode : Node ℤ := .evgeo ⟨0, [1]⟩ 1 0

/-- The generator z: coefficient 1 at exponent 1, degree 2, constant 0. -/
def zNode : Node ℤ := .evgeo ⟨1, [1]⟩ 2 0

/-- The node bound by define to the Catalan placeholder C with C = 1 + z*C^2:
the addition of one with the product of z and the square of C, where both
occurrences of C are the same placeholder object of approximate valuation 0
whose coefficients are read through the oracle c. The square comes from
generic_power computing C*C through _mul_, and each operator node stores the
approximate valuations of its construction time. -/
def catTarget (c : ℤ → ℤ) : Node ℤ :=
  .add oneNode (.mul zNode (.mul (.coefFn c 0 0) (.coefFn c 0 0)))

/-- One demand-driven evaluation step of the bound placeholder: the
uninitialized node returns zero below its approximate valuation 0 and
otherwise delegates to the coefficient of its target, whose self-references
read the oracle c. -/
def defStep (c : ℤ → ℤ) (n : ℤ) : ℤ :=
  if n < 0 then 0 else (catTarget c).coeff n

/-- The cache of the first n + 1 coefficients of the Catalan series, built
in the order the dense evaluator fills its cache: each new coefficient for
an index above 0 is the convolution of the earlier entries. -/
def catList : ℕ → List ℤ
  | 0 => [1]
  | n + 1 => catList n ++
      [∑ k in Finset.range (n + 1), (catList n).getD k 0 * (catList n).getD (n - k) 0]

/-- The full coefficient function of the Catalan series: zero at negative
indices, else the cached value. -/
def catSol (n : ℤ) : ℤ :=
  if n < 0 then 0 else (catList n.toNat).getD n.toNat 0

/-- C5: dividing any series by the zero series fails with the
division-by-zero error, and inverting the zero series fails with the
division-by-zero error; the total model returns the error directly to the
caller, so neither operation loops or produces a series. -/
theorem claim5_zero_division_signals (G : Type) [Field G] [DecidableEq G] :
    (∀ (l : Node G) (fuel : ℕ), llsDiv l .zero fuel = .error .divisionByZero) ∧
    (∀ fuel : ℕ, llsInvert (.zero : Node G) fuel = .error .divisionByZero) := by
  refine ⟨fun l fuel => ?_, fun fuel => rfl⟩
  simp [llsDiv, Node.isZeroNode]

/-- C9: map_coefficients on an eventually-constant (closed-form) series does
not produce the mapped closed-form series: the source branch reads the local
variable p before any assignment, so the call raises UnboundLocalError.
Shown on the series 1 + z with the map adding one to every coefficient. -/
theorem claim9_map_coefficients_evgeo_raises :
    mapCoefficients (Node.evgeo (⟨0, [1, 1]⟩ : LPoly ℤ) 2 0) (fun c => c + 1)
      = .error .unboundLocal := rfl

/-- C10: calling define on any series that is not an unbound placeholder
(an ordinary wrapped node, or a placeholder already bound) fails with the
already-defined error and leaves the series unchanged. -/
theorem claim10_define_rejected (R : Type) (s : SeriesRep R) (expr : Node R)
    (h : s.isUnbound = false) :
    defineOp s expr = (.error .alreadyDefined, s) := by
  cases s with
  | wrapped n => rfl
  | uninitialized a t =>
      cases t with
      | none => simp [SeriesRep.isUnbound] at h
      | some tgt => rfl

/-- Witness for C10 at the generator z: define on z fails with the
already-defined error and returns the series unchanged. -/
theorem claim10_define_rejected_witness :
    (SeriesRep.wrapped zNode).isUnbound = false ∧
    defineOp (SeriesRep.wrapped zNode) Node.zero
      = (.error .alreadyDefined, SeriesRep.wrapped zNode) :=
  ⟨rfl, claim10_define_rejected ℤ (SeriesRep.wrapped zNode) Node.zero rfl⟩

/-- C2: the approximate valuation is not a sound lower bound at every point
of every operation sequence. Composing f = coefficient function n ↦ n with
approximate valuation 0 (not a finite polynomial) with
g = z⁻¹ + z, of approximate valuation -1, promotes the bound of g to 1 even
though g has the nonzero coefficient 1 at index -1 < 1: the guard scans
range(f av) = range(0), which is empty, instead of the coefficients of g
below the required bound. After the promotion a coefficient sits strictly
below the approximate valuation and is not zero. -/
theorem claim2_unsound_promotion :
    llsCall (Node.coefFn (fun n => (n : ℤ)) 0 0) (Node.evgeo ⟨-1, [1, 0, 1]⟩ 2 0)
        = .ok (.composed 1) ∧
    Node.coeff (Node.evgeo (⟨-1, [1, 0, 1]⟩ : LPoly ℤ) 2 0) (-1) = 1 ∧
    (-1 : ℤ) < 1 := by
  exact ⟨rfl, by decide, by decide⟩

/-- C4: composing a series f that is not a finite polynomial with a series g
of valuation 0 does not fail with the invalid-composition error: with
f = coefficient function n ↦ n of approximate valuation 0 and g = 1 + z,
whose coefficient at 0 is 1 so that the valuation of g is not strictly
positive, the scan over range(f av) = range(0) is empty and the composition
node is constructed with the bound of g promoted to 1. -/
theorem claim4_invalid_composition_accepted :
    llsCall (Node.coefFn (fun n => (n : ℤ)) 0 0) (Node.evgeo ⟨0, [1, 1]⟩ 2 0)
        = .ok (.composed 1) ∧
    Node.coeff (Node.evgeo (⟨0, [1, 1]⟩ : LPoly ℤ) 2 0) 0 = 1 := by
  exact ⟨rfl, by decide⟩

/-- C7: the truthiness test of a sparse series that is neither the zero node
nor eventually geometric reports a definite nonzero verdict without any
nonzero coefficient as evidence: for the coefficient function n ↦ 0 with
approximate valuation 0, after the query at index 1 put the entry (1, 0)
into the sparse cache, the test returns true because it iterates over the
dict keys and the key 1 is truthy, although every coefficient of the series
is zero. -/
theorem claim7_bool_sparse_key_iteration :
    llsBoolSparse (Node.coefFn (fun _ => (0 : ℤ)) 0 0) [(1, 0)] = .ok true ∧
    (∀ n : ℤ, Node.coeff (Node.coefFn (fun _ => (0 : ℤ)) 0 0) n = 0) := by
  refine ⟨rfl, fun n => ?_⟩
  simp [Node.coeff]

/-- C3: the coefficient of a product node satisfies the convolution law,
with the sum ranging from the approximate valuation of the left operand to
the index minus the approximate valuation of the right operand, and the
approximate valuation of the product is the sum of the bounds of the
operands. -/
theorem claim3_convolution_law (R : Type) [CommRing R] [DecidableEq R]
    (l r : Node R) (n : ℤ) :
    Node.coeff (Node.mul l r) n
        = ∑ k in Finset.Icc l.av (n - r.av), l.coeff k * r.coeff (n - k) ∧
    (Node.mul l r).av = l.av + r.av := by
  constructor
  · show (if n < l.av + r.av then 0
      else ∑ k in Finset.Icc l.av (n - r.av),
        (if l.coeff k = 0 then 0 else l.coeff k * r.coeff (n - k))) = _
    by_cases h : n < l.av + r.av
    · rw [if_pos h, Finset.Icc_eq_empty (by omega), Finset.sum_empty]
    · rw [if_neg h]
      refine Finset.sum_congr rfl (fun k _ => ?_)
      by_cases hz : l.coeff k = 0
      · rw [if_pos hz, hz, zero_mul]
      · rw [if_neg hz]
  · rfl

/-- Splitting the top index off an integer interval sum. -/
theorem sum_Icc_top {M : Type} [AddCommMonoid M] (f : ℤ → M) {a b : ℤ}
    (h : a ≤ b) :
    ∑ k in Finset.Icc a b, f k = (∑ k in Finset.Icc a (b - 1), f k) + f b := by
  have hset : Finset.Icc a b = insert b (Finset.Icc a (b - 1)) := by
    ext x
    simp only [Finset.mem_Icc, Finset.mem_insert]
    omega
  rw [hset, Finset.sum_insert (by simp only [Finset.mem_Icc]; omega), add_comm]

/-- The length of the Catalan cache. -/
theorem catList_length (n : ℕ) : (catList n).length = n + 1 := by
  induction n with
  | zero => rfl
  | succ n ih => simp [catList, ih]

/-- Entries of the Catalan cache are stable under cache growth. -/
theorem catList_getD_stable (m k : ℕ) (h : k ≤ m) :
    (catList m).getD k 0 = (catList k).getD k 0 := by
  induction m with
  | zero =>
      have : k = 0 := Nat.le_zero.mp h
      subst this
      rfl
  | succ m ih =>
      rcases Nat.lt_or_ge k (m + 1) with hk | hk
      · have hlen : k < (catList m).length := by rw [catList_length]; omega
        calc (catList (m + 1)).getD k 0
            = (catList m).getD k 0 := List.getD_append _ _ _ _ hlen
          _ = (catList k).getD k 0 := ih (by omega)
      · have : k = m + 1 := by omega
        subst this
        rfl

/-- The Catalan solution at a natural index reads the cache there. -/
theorem catSol_coe (n : ℕ) : catSol (n : ℤ) = (catList n).getD n 0 := by
  unfold catSol
  rw [if_neg (by omega), Int.toNat_natCast]

/-- The Catalan recurrence satisfied by the solution. -/
theorem catSol_succ (n : ℕ) :
    catSol ((n : ℤ) + 1)
      = ∑ k in Finset.range (n + 1), catSol (k : ℤ) * catSol ((n : ℤ) - (k : ℤ)) := by
  have h1 : ((n : ℤ) + 1) = ((n + 1 : ℕ) : ℤ) := by push_cast; ring
  rw [h1, catSol_coe]
  rw [show catList (n + 1) = catList n ++
    [∑ k in Finset.range (n + 1), (catList n).getD k 0 * (catList n).getD (n - k) 0]
    from rfl]
  rw [List.getD_append_right _ _ _ _ (by rw [catList_length])]
  rw [catList_length]
  simp only [Nat.sub_self, List.getD_cons_zero]
  refine Finset.sum_congr rfl (fun k hk => ?_)
  have hk2 : k ≤ n := by
    have := Finset.mem_range.mp hk
    omega
  have e1 : (catList n).getD k 0 = catSol (k : ℤ) := by
    rw [catSol_coe, catList_getD_stable n k hk2]
  have e2 : (catList n).getD (n - k) 0 = catSol ((n : ℤ) - (k : ℤ)) := by
    rw [show (n : ℤ) - (k : ℤ) = ((n - k : ℕ) : ℤ) by
      rw [Nat.cast_sub hk2]]
    rw [catSol_coe, catList_getD_stable n (n - k) (by omega)]
  rw [e1, e2]

/-- The approximate valuation of the one node is 0. -/
theorem oneNode_av : oneNode.av = 0 := by decide

/-- The approximate valuation of the generator node is 1. -/
theorem zNode_av : zNode.av = 1 := by decide

/-- Coefficients of the one node. -/
theorem oneNode_coeff (n : ℤ) : oneNode.coeff n = if n = 0 then 1 else 0 := by
  show (if (1 : ℤ) ≤ n then 0 else LPoly.coeff ⟨0, [1]⟩ n) = _
  rcases lt_trichotomy n 0 with h | h | h
  · rw [if_neg (by omega), if_neg (by omega)]
    show (if n < 0 then 0 else _) = (0 : ℤ)
    rw [if_pos h]
  · subst h
    rfl
  · rw [if_pos (by omega), if_neg (by omega)]

/-- Coefficients of the generator node. -/
theorem zNode_coeff (n : ℤ) : zNode.coeff n = if n = 1 then 1 else 0 := by
  show (if (2 : ℤ) ≤ n then 0 else LPoly.coeff ⟨1, [1]⟩ n) = _
  rcases lt_trichotomy n 1 with h | h | h
  · rw [if_neg (by omega), if_neg (by omega)]
    show (if n < 1 then 0 else _) = (0 : ℤ)
    rw [if_pos h]
  · subst h
    rfl
  · have h2 : (2 : ℤ) ≤ n := by omega
    rw [if_pos h2, if_neg (by omega)]

/-- Coefficients of the square of the placeholder, read through the oracle:
the product of the two coefficient-function views of the placeholder. -/
theorem mulCC_eval (c : ℤ → ℤ) (m : ℤ) :
    (Node.mul (Node.coefFn c 0 0) (Node.coefFn c 0 0)).coeff m
      = if m < 0 then 0 else ∑ j in Finset.Icc (0 : ℤ) m, c j * c (m - j) := by
  show (if m < 0 + 0 then 0 else ∑ j in Finset.Icc (0 : ℤ) (m - 0),
      (if (if j < (0 : ℤ) then 0 else c j) = 0 then 0
       else (if j < (0 : ℤ) then 0 else c j) *
         (if m - j < (0 : ℤ) then 0 else c (m - j)))) = _
  by_cases hm : m < 0
  · rw [if_pos (by omega), if_pos hm]
  · rw [if_neg (by omega), if_neg hm]
    refine Finset.sum_congr (by rw [sub_zero]) (fun j hj => ?_)
    have hj2 := Finset.mem_Icc.mp hj
    have e1 : (if j < (0 : ℤ) then (0 : ℤ) else c j) = c j := if_neg (by omega)
    have e2 : (if m - j < (0 : ℤ) then (0 : ℤ) else c (m - j)) = c (m - j) :=
      if_neg (by omega)
    rw [e1, e2]
    by_cases hz : c j = 0
    · rw [if_pos hz, hz, zero_mul]
    · rw [if_neg hz]

/-- Unfolding of one evaluation step of the bound Catalan placeholder. -/
theorem defStep_eval (c : ℤ → ℤ) (n : ℤ) :
    defStep c n = if n < 0 then 0 else
      ((if n = 0 then 1 else 0) +
        if n < 1 then 0 else ∑ j in Finset.Icc (0 : ℤ) (n - 1), c j * c (n - 1 - j)) := by
  unfold defStep catTarget
  by_cases hn : n < 0
  · rw [if_pos hn, if_pos hn]
  · rw [if_neg hn, if_neg hn]
    have hstep : (Node.add oneNode (Node.mul zNode
        (Node.mul (Node.coefFn c 0 0) (Node.coefFn c 0 0)))).coeff n
        = if n < min oneNode.av (Node.mul zNode
            (Node.mul (Node.coefFn c 0 0) (Node.coefFn c 0 0))).av then 0
          else oneNode.coeff n + (Node.mul zNode
            (Node.mul (Node.coefFn c 0 0) (Node.coefFn c 0 0))).coeff n := rfl
    have hav : (Node.mul zNode
        (Node.mul (Node.coefFn c 0 0) (Node.coefFn c 0 0))).av = 1 := rfl
    rw [hstep, hav, oneNode_av]
    rw [if_neg (by omega : ¬ n < min (0 : ℤ) 1), oneNode_coeff]
    congr 1
    have hmulz : (Node.mul zNode
        (Node.mul (Node.coefFn c 0 0) (Node.coefFn c 0 0))).coeff n
        = if n < 1 + 0 then 0 else ∑ k in Finset.Icc (1 : ℤ) (n - 0),
          (if zNode.coeff k = 0 then 0 else zNode.coeff k *
            (Node.mul (Node.coefFn c 0 0) (Node.coefFn c 0 0)).coeff (n - k)) := rfl
    rw [hmulz]
    by_cases hn1 : n < 1
    · rw [if_pos (by omega), if_pos hn1]
    · rw [if_neg (by omega), if_neg hn1]
      rw [Finset.sum_eq_single_of_mem (1 : ℤ)
        (Finset.mem_Icc.mpr (by omega))
        (fun b hb hb1 => by rw [zNode_coeff, if_neg hb1, if_pos rfl])]
      rw [zNode_coeff, if_pos rfl, if_neg one_ne_zero, one_mul, mulCC_eval,
        if_neg (by omega)]

/-- Evaluating the bound target at index n only reads the oracle at indices
strictly below n. -/
theorem defStep_local (c d : ℤ → ℤ) (n : ℤ)
    (h : ∀ k, k < n → c k = d k) : defStep c n = defStep d n := by
  rw [defStep_eval, defStep_eval]
  by_cases hn : n < 0
  · rw [if_pos hn, if_pos hn]
  · rw [if_neg hn, if_neg hn]
    congr 1
    by_cases hn1 : n < 1
    · rw [if_pos hn1, if_pos hn1]
    · rw [if_neg hn1, if_neg hn1]
      refine Finset.sum_congr rfl (fun j hj => ?_)
      have hj2 := Finset.mem_Icc.mp hj
      rw [h j (by omega), h (n - 1 - j) (by omega)]

/-- Conversion of the integer-interval convolution to the natural-number
range of the cache recurrence. -/
theorem sum_Icc_coe_range (f : ℤ → ℤ) (m : ℕ) :
    ∑ j in Finset.Icc (0 : ℤ) (m : ℤ), f j
      = ∑ j in Finset.range (m + 1), f (j : ℤ) := by
  induction m with
  | zero => simp
  | succ m ih =>
      have h1 : ((m + 1 : ℕ) : ℤ) = (m : ℤ) + 1 := by push_cast; ring
      rw [h1, sum_Icc_top f (by omega : (0 : ℤ) ≤ (m : ℤ) + 1),
        show (m : ℤ) + 1 - 1 = (m : ℤ) by ring, ih]
      conv_rhs => rw [Finset.sum_range_succ]
      rw [h1]

/-- The Catalan solution is a fixpoint of the demand-driven evaluation. -/
theorem catSol_fix (n : ℤ) : catSol n = defStep catSol n := by
  rw [defStep_eval]
  rcases lt_trichotomy n 0 with hn | hn | hn
  · rw [if_pos hn]
    unfold catSol
    rw [if_pos hn]
  · subst hn
    rfl
  · rw [if_neg (by omega), if_neg (by omega), if_neg (by omega), zero_add]
    obtain ⟨m, rfl⟩ : ∃ m : ℕ, n = (m : ℤ) + 1 := by
      refine ⟨(n - 1).toNat, ?_⟩
      omega
    rw [show (m : ℤ) + 1 - 1 = (m : ℤ) by ring, sum_Icc_coe_range, catSol_succ]

/-- Any fixpoint of the demand-driven evaluation is the Catalan solution. -/
theorem catSol_unique (d : ℤ → ℤ) (hd : ∀ n, d n = defStep d n) (n : ℤ) :
    d n = catSol n := by
  have hneg : ∀ k : ℤ, k < 0 → d k = catSol k := by
    intro k hk
    rw [hd k, defStep_eval, if_pos hk]
    unfold catSol
    rw [if_pos hk]
  have key : ∀ (N : ℕ) (k : ℤ), k ≤ (N : ℤ) → d k = catSol k := by
    intro N
    induction N with
    | zero =>
        intro k hk
        have hk0 : k ≤ 0 := by exact_mod_cast hk
        rcases lt_or_eq_of_le hk0 with h | h
        · exact hneg k h
        · subst h
          rw [hd 0, defStep_eval]
          rfl
    | succ N ih =>
        intro k hk
        rcases le_or_lt k (N : ℤ) with h | h
        · exact ih k h
        · have hloc : ∀ j, j < k → d j = catSol j := by
            intro j hj
            rcases lt_or_le j 0 with hj0 | hj0
            · exact hneg j hj0
            · exact ih j (by omega)
          rw [hd k, defStep_local d catSol k hloc, ← catSol_fix k]
  rcases lt_or_le n 0 with h | h
  · exact hneg n h
  · exact key n.toNat n (by omega)

/-- C1: the placeholder C of approximate valuation 0 bound once by define to
1 + z*C^2 yields a total coefficient function: the demand-driven evaluation
has the (unique) fixpoint catSol, whose first seven coefficients are the
Catalan numbers 1, 1, 2, 5, 14, 42, 132, and one evaluation step at index n
only ever demands coefficients of the placeholder at indices strictly less
than n, which is why every coefficient query terminates. -/
theorem claim1_catalan_definition :
    (∀ n : ℤ, catSol n = defStep catSol n) ∧
    [catSol 0, catSol 1, catSol 2, catSol 3, catSol 4, catSol 5, catSol 6]
      = [1, 1, 2, 5, 14, 42, 132] ∧
    (∀ (c d : ℤ → ℤ) (n : ℤ), (∀ k, k < n → c k = d k) →
      defStep c n = defStep d n) ∧
    (∀ d : ℤ → ℤ, (∀ n, d n = defStep d n) → ∀ n, d n = catSol n) :=
  ⟨catSol_fix, by decide, defStep_local, catSol_unique⟩

/-- Witness for C1: the locality part applied at index 3 to two oracles that
agree below 3 and differ at 3, and the uniqueness part applied to the
fixpoint itself. -/
theorem claim1_catalan_definition_witness :
    defStep (fun k => if k < 3 then catSol k else 5) 3 = defStep catSol 3 ∧
    catSol 4 = catSol 4 :=
  ⟨claim1_catalan_definition.2.2.1 (fun k => if k < 3 then catSol k else 5)
      catSol 3 (fun _ hk => if_pos hk),
    claim1_catalan_definition.2.2.2 catSol claim1_catalan_definition.1 4⟩

/-- Unfolding of the LLS_inv coefficient recurrence. -/
theorem invCoeff_eq {F : Type} [Field F] [DecidableEq F]
    (cs : ℤ → F) (v : ℤ) (a : F) (n : ℤ) :
    invCoeff cs v a n
      = if n < -v then 0
        else if n = -v then a
        else (-(∑ k in Finset.Icc (-v) (n - 1),
            invCoeff cs v a k * cs (n - (-v) - k))) * a := by
  conv_lhs => rw [invCoeff]
  rw [Finset.sum_attach (Finset.Icc (-v) (n - 1))
    (fun k => invCoeff cs v a k * cs (n - (-v) - k))]

/-- Unfolding of the LLS_div coefficient recurrence. -/
theorem divCoeff_eq {F : Type} [Field F] [DecidableEq F]
    (lc rc : ℤ → F) (lv rv : ℤ) (a : F) (n : ℤ) :
    divCoeff lc rc lv rv a n
      = if n < lv - rv then 0
        else if n = lv - rv then lc lv / rc rv
        else (lc (n + rv) - ∑ k in Finset.Icc (lv - rv) (n - 1),
            divCoeff lc rc lv rv a k * rc (n + rv - k)) * a := by
  conv_lhs => rw [divCoeff]
  rw [Finset.sum_attach (Finset.Icc (lv - rv) (n - 1))
    (fun k => divCoeff lc rc lv rv a k * rc (n + rv - k))]

/-- Reindexing an integer-interval sum by a shift. -/
theorem sum_Icc_shift {M : Type} [AddCommMonoid M] (f : ℤ → M) (a b c : ℤ) :
    ∑ k in Finset.Icc a b, f (k - c) = ∑ k in Finset.Icc (a - c) (b - c), f k := by
  rw [show a - c = a + -c by ring, show b - c = b + -c by ring,
    ← Finset.map_add_right_Icc a b (-c), Finset.sum_map]
  refine Finset.sum_congr rfl (fun x _ => ?_)
  rw [addRightEmbedding_apply, sub_eq_add_neg]

/-- The coefficients of an LLS_inv node over the coefficient function rc
with valuation rv form a convolution inverse of rc: the convolution of the
inverse with rc is the delta series at 0. -/
theorem inv_conv {F : Type} [Field F] [DecidableEq F]
    (rc : ℤ → F) (rv : ℤ) (hu : rc rv ≠ 0) (m : ℤ) :
    ∑ k in Finset.Icc (-rv) (m - rv),
        invCoeff rc rv (rc rv)⁻¹ k * rc (m - k)
      = if m = 0 then 1 else 0 := by
  rcases lt_trichotomy m 0 with hm | hm | hm
  · rw [Finset.Icc_eq_empty (by omega), Finset.sum_empty, if_neg (by omega)]
  · subst hm
    rw [show (0 : ℤ) - rv = -rv by ring, Finset.Icc_self, Finset.sum_singleton,
      invCoeff_eq]
    rw [if_neg (by omega), if_pos rfl, show (0 : ℤ) - -rv = rv by ring,
      inv_mul_cancel₀ hu]
    rfl
  · rw [sum_Icc_top _ (by omega : -rv ≤ m - rv), if_neg (by omega)]
    have htop : invCoeff rc rv (rc rv)⁻¹ (m - rv)
        = (-(∑ k in Finset.Icc (-rv) (m - rv - 1),
            invCoeff rc rv (rc rv)⁻¹ k * rc (m - rv - (-rv) - k))) * (rc rv)⁻¹ := by
      rw [invCoeff_eq, if_neg (by omega), if_neg (by omega)]
    have harg : ∀ k : ℤ, m - rv - (-rv) - k = m - k := by intro k; ring
    simp only [harg] at htop
    rw [htop, show m - (m - rv) = rv by ring]
    set S := ∑ k in Finset.Icc (-rv) (m - rv - 1),
      invCoeff rc rv (rc rv)⁻¹ k * rc (m - k) with hS
    calc S + -S * (rc rv)⁻¹ * rc rv
        = S + -S * ((rc rv)⁻¹ * rc rv) := by ring
      _ = 0 := by rw [inv_mul_cancel₀ hu]; ring

/-- The convolution of the inverse coefficients with rc, stopped one index
short of the full interval. -/
theorem inv_conv_partial {F : Type} [Field F] [DecidableEq F]
    (rc : ℤ → F) (rv : ℤ) (hu : rc rv ≠ 0) (m : ℤ) :
    ∑ k in Finset.Icc (-rv) (m - rv - 1),
        invCoeff rc rv (rc rv)⁻¹ k * rc (m - k)
      = (if m = 0 then 1 else 0)
        - invCoeff rc rv (rc rv)⁻¹ (m - rv) * rc rv := by
  rcases le_or_lt m 0 with hm | hm
  · rw [Finset.Icc_eq_empty (by omega), Finset.sum_empty]
    rcases lt_or_eq_of_le hm with hm2 | hm2
    · rw [if_neg (by omega), invCoeff_eq, if_pos (by omega), zero_mul, sub_zero]
    · subst hm2
      rw [if_pos rfl, invCoeff_eq, if_neg (by omega),
        if_pos (by omega : (0 : ℤ) - rv = -rv)]
      rw [inv_mul_cancel₀ hu, sub_self]
  · have hfull := inv_conv rc rv hu m
    rw [sum_Icc_top _ (by omega : -rv ≤ m - rv),
      show m - (m - rv) = rv by ring] at hfull
    rw [eq_sub_iff_add_eq]
    exact hfull

/-- The coefficient of the product of l with the LLS_inv node of r, written
as the plain convolution of the coefficients of l starting at the valuation
lv with the inverse coefficients. -/
theorem mul_inv_coeff_eq {F : Type} [Field F] [DecidableEq F]
    (l r : Node F) (lv rv : ℤ)
    (hL0 : ∀ k, k < lv → l.coeff k = 0)
    (hAl : l.av ≤ lv) (m : ℤ) :
    (Node.mul l (Node.inv r rv (r.coeff rv)⁻¹)).coeff m
      = ∑ j in Finset.Icc lv (m + rv),
          l.coeff j * invCoeff r.coeff rv (r.coeff rv)⁻¹ (m - j) := by
  have hcoeff : (Node.mul l (Node.inv r rv (r.coeff rv)⁻¹)).coeff m
      = if m < l.av + -rv then 0
        else ∑ j in Finset.Icc l.av (m - -rv),
          (if l.coeff j = 0 then 0
           else l.coeff j * invCoeff r.coeff rv (r.coeff rv)⁻¹ (m - j)) := rfl
  rw [hcoeff]
  by_cases hm : m < l.av + -rv
  · rw [if_pos hm, Finset.Icc_eq_empty (by omega), Finset.sum_empty]
  · rw [if_neg hm]
    have h1 : ∑ j in Finset.Icc l.av (m - -rv),
        (if l.coeff j = 0 then 0
         else l.coeff j * invCoeff r.coeff rv (r.coeff rv)⁻¹ (m - j))
        = ∑ j in Finset.Icc l.av (m + rv),
          l.coeff j * invCoeff r.coeff rv (r.coeff rv)⁻¹ (m - j) := by
      refine Finset.sum_congr (by rw [show m - -rv = m + rv by ring])
        (fun j hj => ?_)
      by_cases hz : l.coeff j = 0
      · rw [if_pos hz, hz, zero_mul]
      · rw [if_neg hz]
    rw [h1]
    symm
    refine Finset.sum_subset (fun x hx => ?_) (fun x hx hnx => ?_)
    · have h2 := Finset.mem_Icc.mp hx
      exact Finset.mem_Icc.mpr (by omega)
    · have h2 := Finset.mem_Icc.mp hx
      have h3 : x < lv := by
        by_contra hc
        exact hnx (Finset.mem_Icc.mpr (by omega))
      rw [hL0 x h3, zero_mul]

/-- C8: for L and R with true valuations lv and rv (the boundary
coefficients are nonzero and everything below them vanishes; the stored
approximate valuations are at most the true valuations, as guaranteed by the
upward scan of the valuation method) and R invertible at rv, the division
the code performs, namely LLS_mul of L with LLS_inv of R, is coefficientwise
equal to the LLS_div recurrence, and it has valuation lv - rv: it vanishes
strictly below lv - rv and is nonzero there. -/
theorem claim8_division_refines_recurrence (F : Type) [Field F] [DecidableEq F]
    (l r : Node F) (lv rv : ℤ)
    (hL0 : ∀ k, k < lv → l.coeff k = 0) (hLv : l.coeff lv ≠ 0)
    (hR0 : ∀ k, k < rv → r.coeff k = 0) (hRv : r.coeff rv ≠ 0)
    (hAl : l.av ≤ lv) (hAr : r.av ≤ rv) :
    (∀ n : ℤ, (Node.mul l (Node.inv r rv (r.coeff rv)⁻¹)).coeff n
        = divCoeff l.coeff r.coeff lv rv (r.coeff rv)⁻¹ n) ∧
    (∀ n : ℤ, n < lv - rv →
        (Node.mul l (Node.inv r rv (r.coeff rv)⁻¹)).coeff n = 0) ∧
    (Node.mul l (Node.inv r rv (r.coeff rv)⁻¹)).coeff (lv - rv) ≠ 0 := by
  have base0 : ∀ n : ℤ, n < lv - rv →
      (Node.mul l (Node.inv r rv (r.coeff rv)⁻¹)).coeff n = 0 := by
    intro n hn
    rw [mul_inv_coeff_eq l r lv rv hL0 hAl n, Finset.Icc_eq_empty (by omega),
      Finset.sum_empty]
  have icbase : invCoeff r.coeff rv (r.coeff rv)⁻¹ (-rv) = (r.coeff rv)⁻¹ := by
    rw [invCoeff_eq, if_neg (by omega), if_pos rfl]
  have basev : (Node.mul l (Node.inv r rv (r.coeff rv)⁻¹)).coeff (lv - rv)
      = l.coeff lv * (r.coeff rv)⁻¹ := by
    rw [mul_inv_coeff_eq l r lv rv hL0 hAl, show lv - rv + rv = lv by ring,
      Finset.Icc_self, Finset.sum_singleton, show lv - rv - lv = -rv by ring,
      icbase]
  have main : ∀ (N : ℕ) (n : ℤ), n ≤ lv - rv + N →
      divCoeff l.coeff r.coeff lv rv (r.coeff rv)⁻¹ n
        = (Node.mul l (Node.inv r rv (r.coeff rv)⁻¹)).coeff n := by
    intro N
    induction N with
    | zero =>
        intro n hn
        have hn2 : n ≤ lv - rv := by omega
        rcases lt_or_eq_of_le hn2 with h | h
        · rw [divCoeff_eq, if_pos h, base0 n h]
        · rw [divCoeff_eq, if_neg (by omega), if_pos h, h, basev,
            div_eq_mul_inv]
    | succ N ih =>
        intro n hn
        rcases le_or_lt n (lv - rv + N) with h | h
        · exact ih n h
        · have hn1 : lv - rv < n := by omega
          rw [divCoeff_eq, if_neg (by omega), if_neg (by omega)]
          have hrec : ∑ k in Finset.Icc (lv - rv) (n - 1),
              divCoeff l.coeff r.coeff lv rv (r.coeff rv)⁻¹ k * r.coeff (n + rv - k)
              = ∑ k in Finset.Icc (lv - rv) (n - 1),
                (Node.mul l (Node.inv r rv (r.coeff rv)⁻¹)).coeff k
                  * r.coeff (n + rv - k) := by
            refine Finset.sum_congr rfl (fun k hk => ?_)
            have hk2 := Finset.mem_Icc.mp hk
            rw [ih k (by omega)]
          rw [hrec]
          have hexp : ∑ k in Finset.Icc (lv - rv) (n - 1),
              (Node.mul l (Node.inv r rv (r.coeff rv)⁻¹)).coeff k
                * r.coeff (n + rv - k)
              = ∑ k in Finset.Icc (lv - rv) (n - 1),
                ∑ j in Finset.Icc lv (n - 1 + rv),
                  l.coeff j * invCoeff r.coeff rv (r.coeff rv)⁻¹ (k - j)
                    * r.coeff (n + rv - k) := by
            refine Finset.sum_congr rfl (fun k hk => ?_)
            have hk2 := Finset.mem_Icc.mp hk
            rw [mul_inv_coeff_eq l r lv rv hL0 hAl k, Finset.sum_mul]
            refine Finset.sum_subset (fun x hx =>
              Finset.mem_Icc.mpr (by have := Finset.mem_Icc.mp hx; omega))
              (fun x hx hnx => ?_)
            have hx2 := Finset.mem_Icc.mp hx
            have hxk : k + rv < x := by
              by_contra hc
              exact hnx (Finset.mem_Icc.mpr (by omega))
            have hic0 : invCoeff r.coeff rv (r.coeff rv)⁻¹ (k - x) = 0 := by
              rw [invCoeff_eq, if_pos (by omega)]
            rw [hic0, mul_zero, zero_mul]
          rw [hexp, Finset.sum_comm]
          have hinner : ∀ j ∈ Finset.Icc lv (n - 1 + rv),
              ∑ k in Finset.Icc (lv - rv) (n - 1),
                l.coeff j * invCoeff r.coeff rv (r.coeff rv)⁻¹ (k - j)
                  * r.coeff (n + rv - k)
              = l.coeff j
                  * (-(invCoeff r.coeff rv (r.coeff rv)⁻¹ (n - j) * r.coeff rv)) := by
            intro j hj
            have hj2 := Finset.mem_Icc.mp hj
            have e1 : ∑ k in Finset.Icc (lv - rv) (n - 1),
                l.coeff j * invCoeff r.coeff rv (r.coeff rv)⁻¹ (k - j)
                  * r.coeff (n + rv - k)
                = l.coeff j * ∑ k in Finset.Icc (lv - rv) (n - 1),
                    invCoeff r.coeff rv (r.coeff rv)⁻¹ (k - j)
                      * r.coeff (n + rv - k) := by
              rw [Finset.mul_sum]
              exact Finset.sum_congr rfl (fun k _ => by ring)
            rw [e1]
            have e2 : ∑ k in Finset.Icc (lv - rv) (n - 1),
                invCoeff r.coeff rv (r.coeff rv)⁻¹ (k - j) * r.coeff (n + rv - k)
                = ∑ k in Finset.Icc (lv - rv - j) (n - 1 - j),
                    invCoeff r.coeff rv (r.coeff rv)⁻¹ k
                      * r.coeff (n + rv - j - k) := by
              have hs := sum_Icc_shift
                (fun t => invCoeff r.coeff rv (r.coeff rv)⁻¹ t
                  * r.coeff (n + rv - j - t)) (lv - rv) (n - 1) j
              rw [← hs]
              refine Finset.sum_congr rfl (fun k _ => ?_)
              rw [show n + rv - j - (k - j) = n + rv - k by ring]
            rw [e2]
            have e3 : ∑ k in Finset.Icc (lv - rv - j) (n - 1 - j),
                invCoeff r.coeff rv (r.coeff rv)⁻¹ k * r.coeff (n + rv - j - k)
                = ∑ k in Finset.Icc (-rv) (n - 1 - j),
                    invCoeff r.coeff rv (r.coeff rv)⁻¹ k
                      * r.coeff (n + rv - j - k) := by
              refine (Finset.sum_subset (fun x hx =>
                Finset.mem_Icc.mpr (by have := Finset.mem_Icc.mp hx; omega))
                (fun x hx hnx => ?_)).symm
              have hx2 := Finset.mem_Icc.mp hx
              have hxlt : x < -rv := by
                by_contra hc
                exact hnx (Finset.mem_Icc.mpr (by omega))
              rw [invCoeff_eq, if_pos (by omega), zero_mul]
            rw [e3]
            have e4 := inv_conv_partial r.coeff rv hRv (n + rv - j)
            rw [show n + rv - j - rv - 1 = n - 1 - j by ring,
              show n + rv - j - rv = n - j by ring] at e4
            rw [e4, if_neg (by omega), zero_sub]
          rw [Finset.sum_congr rfl hinner]
          have hS2 : ∑ j in Finset.Icc lv (n - 1 + rv),
              l.coeff j
                * (-(invCoeff r.coeff rv (r.coeff rv)⁻¹ (n - j) * r.coeff rv))
              = -((∑ j in Finset.Icc lv (n - 1 + rv),
                  l.coeff j * invCoeff r.coeff rv (r.coeff rv)⁻¹ (n - j))
                    * r.coeff rv) := by
            rw [Finset.sum_mul, ← Finset.sum_neg_distrib]
            exact Finset.sum_congr rfl (fun j _ => by ring)
          rw [hS2]
          have hmcn : (Node.mul l (Node.inv r rv (r.coeff rv)⁻¹)).coeff n
              = (∑ j in Finset.Icc lv (n - 1 + rv),
                  l.coeff j * invCoeff r.coeff rv (r.coeff rv)⁻¹ (n - j))
                + l.coeff (n + rv) * (r.coeff rv)⁻¹ := by
            rw [mul_inv_coeff_eq l r lv rv hL0 hAl n,
              sum_Icc_top _ (by omega : lv ≤ n + rv),
              show n + rv - 1 = n - 1 + rv by ring,
              show n - (n + rv) = -rv by ring, icbase]
          rw [hmcn]
          have hfin : (l.coeff (n + rv)
              - -((∑ j in Finset.Icc lv (n - 1 + rv),
                  l.coeff j * invCoeff r.coeff rv (r.coeff rv)⁻¹ (n - j))
                    * r.coeff rv)) * (r.coeff rv)⁻¹
              = l.coeff (n + rv) * (r.coeff rv)⁻¹
                + (∑ j in Finset.Icc lv (n - 1 + rv),
                    l.coeff j * invCoeff r.coeff rv (r.coeff rv)⁻¹ (n - j))
                  * (r.coeff rv * (r.coeff rv)⁻¹) := by ring
          rw [hfin, mul_inv_cancel₀ hRv, mul_one, add_comm]
  refine ⟨fun n => (main (n - (lv - rv)).toNat n (by omega)).symm, base0, ?_⟩
  rw [basev]
  exact mul_ne_zero hLv (inv_ne_zero hRv)

/-- Witness for C8 at L = z and R = 1 - z over the rationals, with lv = 1
and rv = 0: the coefficient at index 3 of the product of L with the inverse
node of R equals the LLS_div recurrence there. -/
theorem claim8_division_refines_recurrence_witness :
    (Node.mul (Node.evgeo (⟨1, [1]⟩ : LPoly ℚ) 2 0)
        (Node.inv (Node.evgeo (⟨0, [1, -1]⟩ : LPoly ℚ) 2 0) 0
          ((Node.evgeo (⟨0, [1, -1]⟩ : LPoly ℚ) 2 0).coeff 0)⁻¹)).coeff 3
      = divCoeff (Node.evgeo (⟨1, [1]⟩ : LPoly ℚ) 2 0).coeff
          (Node.evgeo (⟨0, [1, -1]⟩ : LPoly ℚ) 2 0).coeff 1 0
          ((Node.evgeo (⟨0, [1, -1]⟩ : LPoly ℚ) 2 0).coeff 0)⁻¹ 3 :=
  (claim8_division_refines_recurrence ℚ
    (Node.evgeo (⟨1, [1]⟩ : LPoly ℚ) 2 0)
    (Node.evgeo (⟨0, [1, -1]⟩ : LPoly ℚ) 2 0) 1 0
    (by
      intro k hk
      show (if (2 : ℤ) ≤ k then (0 : ℚ) else LPoly.coeff ⟨1, [1]⟩ k) = 0
      rw [if_neg (by omega)]
      show (if k < (1 : ℤ) then (0 : ℚ) else _) = 0
      rw [if_pos (by omega)])
    (by decide)
    (by
      intro k hk
      show (if (2 : ℤ) ≤ k then (0 : ℚ) else LPoly.coeff ⟨0, [1, -1]⟩ k) = 0
      rw [if_neg (by omega)]
      show (if k < (0 : ℤ) then (0 : ℚ) else _) = 0
      rw [if_pos (by omega)])
    (by decide) (by decide) (by decide)).1 3

/-- C6: comparing two series, neither the zero node and not both eventually

geometric, compares the coefficients on the indices from the lower of the
two approximate valuations up to the higher: a difference makes the
comparison return unequal, and when no difference is found and the nodes are
not structurally equal the comparison fails with the undecidable error
instead of computing coefficients indefinitely. -/
theorem claim6_equality_window (R : Type) [CommRing R] [DecidableEq R]
    (x y : Node R) (hx : x.isZeroNode = false) (hy : y.isZeroNode = false)
    (hev : (x.isEvgeo && y.isEvgeo) = false) :
    ((∃ i ∈ Finset.Ico (min x.av y.av) (max x.av y.av), x.coeff i ≠ y.coeff i) →
      richcmpEq x y = .ok false) ∧
    ((∀ i ∈ Finset.Ico (min x.av y.av) (max x.av y.av), x.coeff i = y.coeff i) →
      nodeEq x y = false → richcmpEq x y = .error .undecidable) := by
  constructor
  · intro h
    simp only [richcmpEq, hx, hy, hev, Bool.false_and, Bool.not_false,
      if_false, if_true, Bool.false_eq_true, decide_eq_true h]
  · intro h hne
    have hdec : decide (∃ i ∈ Finset.Ico (min x.av y.av) (max x.av y.av),
        x.coeff i ≠ y.coeff i) = false := by
      simp only [decide_eq_false_iff_not]
      push_neg
      exact h
    simp [richcmpEq, hx, hy, hev, hdec, hne]

/-- Witness for C6 at two distinct coefficient-function objects with the
constant coefficient 1 and approximate valuation 0: the comparison window is
empty, the nodes are distinct objects, and equality raises the undecidable
error. -/
theorem claim6_equality_window_witness :
    richcmpEq (Node.coefFn (fun _ => (1 : ℤ)) 0 0) (Node.coefFn (fun _ => (1 : ℤ)) 0 1)
      = .error .undecidable :=
  (claim6_equality_window ℤ (Node.coefFn (fun _ => (1 : ℤ)) 0 0)
    (Node.coefFn (fun _ => (1 : ℤ)) 0 1) rfl rfl rfl).2 (by
      intro i hi
      have he : Finset.Ico
          (min (Node.coefFn (fun _ => (1 : ℤ)) 0 0).av (Node.coefFn (fun _ => (1 : ℤ)) 0 1).av)
          (max (Node.coefFn (fun _ => (1 : ℤ)) 0 0).av (Node.coefFn (fun _ => (1 : ℤ)) 0 1).av)
          = ∅ := by decide
      rw [he] at hi
      exact absurd hi (Finset.not_mem_empty i)) rfl

end LazySeries
